import Mathlib

/-!
Verification of the package-discovery engine (`package_discovery.py`).

The development shallowly embeds the pure core of the module:

* `parsePurl`          — `PackageDiscoveryService._parse_purl`
* `mergeMetadata`      — `PackageDiscoveryService._merge_metadata`
* `specialGithub`, `specialGo` — the special-case resolvers at the top of
  `PackageDiscoveryService.discover`
* `runChain`, `discover` — the provider loop and the orchestrator of
  `PackageDiscoveryService.discover`; the provider fetchers perform network
  I/O, so they are abstracted as parameters returning a `FetchOutcome`
  (raised exception / `None` / a returned record), and the GitHub release
  API call is abstracted as a function from the package name to an optional
  tag (`none` models an exception or a non-200 response).  `discover`
  additionally returns the trace of network units invoked, so that claims
  about which providers are reached can be stated.
* `cleanRepoUrl`, `processLinks` — the repository-link cleaning and link
  classification loop of `PackageDiscoveryService._fetch_deps_dev`.

String manipulation is embedded at the `List Char` level with recursive
helpers that mirror the Python `str` operations used by the source
(`split`, `split(sep, 1)`, `join`, `replace(pat, "")`, `lstrip`), so that
all definitions evaluate by kernel reduction.
-/

/-- Python `s.split(c)` for a single-character separator: split at every
occurrence, keeping empty parts; the empty string yields `[""]`. -/
def splitOnChar (c : Char) : List Char → List (List Char)
  | [] => [[]]
  | a :: rest =>
    if a = c then [] :: splitOnChar c rest
    else
      match splitOnChar c rest with
      | [] => [[a]]
      | g :: gs => (a :: g) :: gs

/-- Python `c.join(parts)` for a single-character separator. -/
def joinChar (c : Char) : List (List Char) → List Char
  | [] => []
  | [g] => g
  | g :: gs => g ++ c :: joinChar c gs

/-- Python `s.split(c, 1)`: the part before the first occurrence of `c`,
and — when `c` occurs — the part after it. -/
def breakAtFirst (c : Char) : List Char → List Char × Option (List Char)
  | [] => ([], none)
  | a :: rest =>
    if a = c then ([], some rest)
    else
      let r := breakAtFirst c rest
      (a :: r.1, r.2)

/-- Python `s.split(c)[0]`: everything before the first occurrence of `c`
(the whole string when `c` does not occur). -/
def takeUntil (c : Char) : List Char → List Char
  | [] => []
  | a :: rest => if a = c then [] else a :: takeUntil c rest

/-- The scheme prefix `pkg:` as a character list. -/
def pkgPrefix : List Char := ['p', 'k', 'g', ':']

/--
Embedding of `PackageDiscoveryService._parse_purl`, character-list level.

Mirrors the source line by line: reject inputs without the `pkg:` prefix;
drop the prefix; split off a version at the first `@` and truncate it at
the first `?` and then the first `#`; split the remainder on `/`; reject
fewer than two segments; the first segment is the ecosystem and the name
is the second segment when there are exactly two, otherwise all remaining
segments rejoined with `/`.
-/
def parsePurlChars (purl : List Char) :
    Option (List Char × List Char × Option (List Char)) :=
  if pkgPrefix.isPrefixOf purl then
    let body := purl.drop 4
    let br := breakAtFirst '@' body
    let version : Option (List Char) :=
      br.2.map (fun v => takeUntil '#' (takeUntil '?' v))
    let parts := splitOnChar '/' br.1
    if parts.length < 2 then none
    else
      let name :=
        if parts.length = 2 then parts.getD 1 []
        else joinChar '/' parts.tail
      some (parts.headD [], name, version)
  else none

/-- Embedding of `PackageDiscoveryService._parse_purl` on `String`s: `none` models the
method returning `False` (leading `discover` to raise), `some (e, n, v)`
the ecosystem, name and optional version it writes into the record. -/
def parsePurl (purl : String) : Option (String × String × Option String) :=
  (parsePurlChars purl.data).map
    (fun r => (r.1.asString, r.2.1.asString, r.2.2.map List.asString))

/--
The `PackageMetadata` record.  Optional string fields are `Option String`
(Python `None` ↦ `none`); `maintainers` is a `Finset String`, matching the
record's documented set semantics (the source deduplicates it with
`list(set(...))` on every merge).
-/
structure PackageMetadata where
  purl : String
  ecosystem : Option String := none
  name : Option String := none
  version : Option String := none
  repo_url : Option String := none
  license : Option String := none
  description : Option String := none
  homepage : Option String := none
  latest_version : Option String := none
  maintainers : Finset String := ∅
  source : Option String := none
deriving DecidableEq

/-- Python truthiness of an `Optional[str]`: `None` and `""` are falsy. -/
def strTruthy : Option String → Bool
  | none => false
  | some s => !(s == "")

/-- Embedding of `PackageMetadata.is_complete`: ecosystem, name and repo_url all
truthy. -/
def PackageMetadata.is_complete (m : PackageMetadata) : Bool :=
  strTruthy m.ecosystem && strTruthy m.name && strTruthy m.repo_url

/-- Python `a or b` on `Optional[str]` values. -/
def pyOr (a b : Option String) : Option String :=
  if strTruthy a then a else b

/-- Embedding of `PackageDiscoveryService._merge_metadata`: fill-missing on every
scalar field, union on `maintainers`. -/
def mergeMetadata (base new : PackageMetadata) : PackageMetadata where
  purl := base.purl
  ecosystem := pyOr base.ecosystem new.ecosystem
  name := pyOr base.name new.name
  version := pyOr base.version new.version
  repo_url := pyOr base.repo_url new.repo_url
  license := pyOr base.license new.license
  description := pyOr base.description new.description
  homepage := pyOr base.homepage new.homepage
  latest_version := pyOr base.latest_version new.latest_version
  maintainers := base.maintainers ∪ new.maintainers
  source := pyOr base.source new.source

/-- Outcome of invoking one provider fetcher on the current accumulator:
the fetcher raised (`fails`), returned `None` (`noData`), or returned a
record (`contributes`). -/
inductive FetchOutcome where
  | fails
  | noData
  | contributes (r : PackageMetadata)

/-- A provider in the chain: its name and its (abstracted) fetcher. -/
abbrev Provider := String × (PackageMetadata → FetchOutcome)

/--
The provider loop of `PackageDiscoveryService.discover` (the
`for source_name, fetch_func in sources:` loop).  Returns the early
return value, when some contribution was itself complete (with `source`
set to that provider's name); the final accumulator; and the names of the
providers whose fetchers were invoked, in order.
-/
def runChain : List Provider → PackageMetadata →
    Option PackageMetadata × PackageMetadata × List String
  | [], acc => (none, acc, [])
  | (nm, f) :: rest, acc =>
    match f acc with
    | .fails =>
      let r := runChain rest acc
      (r.1, r.2.1, nm :: r.2.2)
    | .noData =>
      let r := runChain rest acc
      (r.1, r.2.1, nm :: r.2.2)
    | .contributes c =>
      if c.is_complete then (some { c with source := some nm }, acc, [nm])
      else
        let r := runChain rest (mergeMetadata acc c)
        (r.1, r.2.1, nm :: r.2.2)

/-- The `missing` list built by `discover` before raising on incomplete
metadata. -/
def missingFields (m : PackageMetadata) : List String :=
  (if strTruthy m.ecosystem then [] else ["ecosystem"]) ++
    (if strTruthy m.name then [] else ["name"]) ++
      (if strTruthy m.repo_url then [] else ["repo_url"])

/-- The message of the `ValueError` raised when discovery is exhausted
without completeness. -/
def missingMsg (purl : String) (m : PackageMetadata) : String :=
  "Could not discover complete metadata for " ++ purl ++ ". Missing: " ++
    String.intercalate ", " (missingFields m)

/-- The accumulator as seeded by `_parse_purl`: fresh record for the purl
with ecosystem, name and version filled in. -/
def seedMetadata (purl e n : String) (v : Option String) : PackageMetadata :=
  { purl := purl, ecosystem := some e, name := some n, version := v }

/-- Python `tag_name.lstrip("v")`. -/
def stripLeadingV (tag : String) : String :=
  (tag.data.dropWhile (fun a => a = 'v')).asString

/--
The GitHub special case of `discover`: when the ecosystem is `github` and
the name is truthy and contains a `/`, set `repo_url` directly from the
name and attempt the release-API call.  `gh` abstracts that call: `some
tag` is a 200 response whose `tag_name` is `tag`, `none` an exception or
non-200 response (in which case `latest_version` is left untouched; on a
200 response an empty tag sets it to `None`, otherwise to the tag without
its leading `v`s).  Also returns the network units invoked. -/
def specialGithub (gh : String → Option String) (m : PackageMetadata) :
    PackageMetadata × List String :=
  if m.ecosystem = some "github" then
    match m.name with
    | some n =>
      if strTruthy (some n) ∧ '/' ∈ n.data then
        ({ m with
            repo_url := some ("https://github.com/" ++ n)
            latest_version :=
              match gh n with
              | none => m.latest_version
              | some tag =>
                if tag = "" then none else some (stripLeadingV tag) },
          ["github-api"])
      else (m, [])
    | none => (m, [])
  else (m, [])

/-- The Go special case of `discover`: for ecosystems `golang`/`go` whose
name starts with `github.com/` or `gitlab.com/`, derive `repo_url` from
the first three `/`-segments of the name.  No network call. -/
def specialGo (m : PackageMetadata) : PackageMetadata :=
  if m.ecosystem = some "golang" ∨ m.ecosystem = some "go" then
    match m.name with
    | some n =>
      if "github.com/".data.isPrefixOf n.data then
        let parts := splitOnChar '/' n.data
        if 3 ≤ parts.length then
          { m with
              repo_url :=
                some (("https://".data ++ joinChar '/' (parts.take 3)).asString) }
        else m
      else if "gitlab.com/".data.isPrefixOf n.data then
        let parts := splitOnChar '/' n.data
        if 3 ≤ parts.length then
          { m with
              repo_url :=
                some (("https://".data ++ joinChar '/' (parts.take 3)).asString) }
        else m
      else m
    | none => m
  else m

/--
Embedding of `PackageDiscoveryService.discover`.  `gh` abstracts the GitHub release
API (see `specialGithub`), `providers` the fetcher chain (the source
builds it as deps.dev, clearlydefined, purl2src, upmex, plus serpapi when
a key is configured).  Returns the outcome — `Except.error` models the
raised `ValueError` — together with the trace of network units invoked.
-/
def discover (gh : String → Option String) (providers : List Provider)
    (purl : String) (allowPartial : Bool) :
    Except String PackageMetadata × List String :=
  match parsePurl purl with
  | none => (Except.error ("Invalid PURL format: " ++ purl), [])
  | some (e, n, v) =>
    let sg := specialGithub gh (seedMetadata purl e n v)
    let m2 := specialGo sg.1
    let rc := runChain providers m2
    match rc.1 with
    | some r => (Except.ok r, sg.2 ++ rc.2.2)
    | none =>
      if allowPartial = false ∧ rc.2.1.is_complete = false then
        (Except.error (missingMsg purl rc.2.1), sg.2 ++ rc.2.2)
      else (Except.ok rc.2.1, sg.2 ++ rc.2.2)

/-- Python `s.replace("git+", "")`: remove every occurrence of the
substring `git+`, scanning left to right. -/
def removeGitPlus : List Char → List Char
  | 'g' :: 'i' :: 't' :: '+' :: rest => removeGitPlus rest
  | a :: rest => a :: removeGitPlus rest
  | [] => []

/-- Python `s.replace(".git", "")`: remove every occurrence of the
substring `.git`, scanning left to right. -/
def removeDotGit : List Char → List Char
  | '.' :: 'g' :: 'i' :: 't' :: rest => removeDotGit rest
  | a :: rest => a :: removeDotGit rest
  | [] => []

/-- Python `s.split(pat)[0]` guarded by `if pat in s`: everything before
the first occurrence of the substring `pat` (the whole string when `pat`
does not occur). -/
def takeBefore (pat : List Char) : List Char → List Char
  | [] => []
  | a :: rest =>
    if pat.isPrefixOf (a :: rest) then [] else a :: takeBefore pat rest

/-- The trailing path segments stripped from repository URLs by
`_fetch_deps_dev`, in the order the source iterates them. -/
def repoPathSuffixes : List (List Char) :=
  ["/issues".data, "/pulls".data, "/wiki".data, "/tree".data, "/blob".data]

/-- The repository-URL cleanup of `_fetch_deps_dev`: remove all `git+`
occurrences, then all `.git` occurrences, then cut at each of the path
suffixes in turn. -/
def cleanRepoUrl (u : String) : String :=
  (repoPathSuffixes.foldl (fun acc suf => takeBefore suf acc)
    (removeDotGit (removeGitPlus u.data))).asString

/-- A spec-worded variant of the cleanup, for comparison with
`cleanRepoUrl`: strip a `git+` *prefix*, strip a trailing `.git`
*suffix*, then cut at the path suffixes.  This follows the claim's words,
not the source. -/
def specCleanRepoUrl (u : String) : String :=
  let l := u.data
  let l1 := if "git+".data.isPrefixOf l then l.drop 4 else l
  let l2 := if ".git".data.isSuffixOf l1 then l1.take (l1.length - 4) else l1
  (repoPathSuffixes.foldl (fun acc suf => takeBefore suf acc) l2).asString

/-- One entry of the `links` array of a deps.dev version response. -/
structure ApiLink where
  label : String
  url : String

/-- Python `s.lower()` on the character list. -/
def lowerChars (l : List Char) : List Char := l.map Char.toLower

/-- Python `pat in s`: the substring test. -/
def containsSub (pat : List Char) : List Char → Bool
  | [] => pat.isEmpty
  | a :: rest => pat.isPrefixOf (a :: rest) || containsSub pat rest

/-- The link classification test of `_fetch_deps_dev`: the lower-cased
URL contains a known code-forge host. -/
def isForgeUrl (u : String) : Bool :=
  containsSub "github.com".data (lowerChars u.data) ||
    containsSub "gitlab.com".data (lowerChars u.data) ||
      containsSub "bitbucket.org".data (lowerChars u.data)

/-- The `for link in version_data["links"]` loop of `_fetch_deps_dev`,
threading the `repo_url` and `homepage` fields of the result record:
a forge link is cleaned and stored as `repo_url` when `repo_url` is still
falsy; otherwise a link whose lower-cased label contains `homepage`
becomes the homepage when none is set yet. -/
def processLinks : List ApiLink → Option String → Option String →
    Option String × Option String
  | [], repo, home => (repo, home)
  | lk :: rest, repo, home =>
    if isForgeUrl lk.url then
      let repo2 := if strTruthy repo then repo else some (cleanRepoUrl lk.url)
      processLinks rest repo2 home
    else
      if containsSub "homepage".data (lowerChars lk.label.data) ∧
          strTruthy home = false then
        processLinks rest repo (some lk.url)
      else processLinks rest repo home

/-- A sample accumulator for concrete checks, mirroring the repository's
merge tests: ecosystem and license set, one maintainer. -/
def sampleBase : PackageMetadata :=
  { purl := "pkg:npm/express", ecosystem := some "npm",
    license := some "MIT", maintainers := {"alice"} }

/-- A sample candidate record: a conflicting license, a description and
two maintainers, one shared with `sampleBase`. -/
def sampleCand : PackageMetadata :=
  { purl := "pkg:npm/express", license := some "Apache-2.0",
    description := some "Fast web framework",
    maintainers := {"bob", "alice"} }

/-- A complete record as a provider contribution for concrete checks. -/
def sampleComplete : PackageMetadata :=
  { purl := "pkg:npm/express", ecosystem := some "npm",
    name := some "express",
    repo_url := some "https://github.com/expressjs/express" }

/-! ### Helper lemmas about the character-level string operations -/

theorem splitOnChar_ne_nil (c : Char) (l : List Char) : splitOnChar c l ≠ [] := by
  induction l with
  | nil => simp [splitOnChar]
  | cons a rest ih =>
    rw [splitOnChar]
    by_cases h : a = c
    · simp [h]
    · simp only [if_neg h]
      cases hs : splitOnChar c rest <;> simp

theorem splitOnChar_not_mem {c : Char} {l : List Char} (h : c ∉ l) :
    splitOnChar c l = [l] := by
  induction l with
  | nil => rfl
  | cons a rest ih =>
    have ha : ¬ a = c := fun e => h (e ▸ List.mem_cons_self a rest)
    have hr : c ∉ rest := fun m => h (List.mem_cons_of_mem _ m)
    rw [splitOnChar, if_neg ha, ih hr]

theorem splitOnChar_append {c : Char} {l₁ l₂ : List Char} (h : c ∉ l₁) :
    splitOnChar c (l₁ ++ c :: l₂) = l₁ :: splitOnChar c l₂ := by
  induction l₁ with
  | nil => simp [splitOnChar]
  | cons a rest ih =>
    have ha : ¬ a = c := fun e => h (e ▸ List.mem_cons_self a rest)
    have hr : c ∉ rest := fun m => h (List.mem_cons_of_mem _ m)
    rw [List.cons_append, splitOnChar, if_neg ha, ih hr]

theorem joinChar_splitOnChar (c : Char) (l : List Char) :
    joinChar c (splitOnChar c l) = l := by
  induction l with
  | nil => rfl
  | cons a rest ih =>
    rw [splitOnChar]
    by_cases h : a = c
    · subst h
      rw [if_pos rfl]
      cases hs : splitOnChar a rest with
      | nil => exact absurd hs (splitOnChar_ne_nil a rest)
      | cons g gs =>
        rw [hs] at ih
        rw [joinChar, List.nil_append, ih]
        simp
    · rw [if_neg h]
      cases hs : splitOnChar c rest with
      | nil => exact absurd hs (splitOnChar_ne_nil c rest)
      | cons g gs =>
        rw [hs] at ih
        cases gs with
        | nil => rw [joinChar]; rw [joinChar] at ih; rw [ih]
        | cons g2 gs2 =>
          rw [joinChar] at ih ⊢
          rw [List.cons_append, ih]
          all_goals simp

theorem breakAtFirst_not_mem {c : Char} {l : List Char} (h : c ∉ l) :
    breakAtFirst c l = (l, none) := by
  induction l with
  | nil => rfl
  | cons a rest ih =>
    have ha : ¬ a = c := fun e => h (e ▸ List.mem_cons_self a rest)
    have hr : c ∉ rest := fun m => h (List.mem_cons_of_mem _ m)
    rw [breakAtFirst, if_neg ha]
    simp [ih hr]

theorem breakAtFirst_append {c : Char} {l₁ l₂ : List Char} (h : c ∉ l₁) :
    breakAtFirst c (l₁ ++ c :: l₂) = (l₁, some l₂) := by
  induction l₁ with
  | nil => simp [breakAtFirst]
  | cons a rest ih =>
    have ha : ¬ a = c := fun e => h (e ▸ List.mem_cons_self a rest)
    have hr : c ∉ rest := fun m => h (List.mem_cons_of_mem _ m)
    rw [List.cons_append, breakAtFirst, if_neg ha]
    simp [ih hr]

theorem takeUntil_append {c : Char} {l₁ : List Char} (l₂ : List Char)
    (h : c ∉ l₁) : takeUntil c (l₁ ++ l₂) = l₁ ++ takeUntil c l₂ := by
  induction l₁ with
  | nil => rfl
  | cons a rest ih =>
    have ha : ¬ a = c := fun e => h (e ▸ List.mem_cons_self a rest)
    have hr : c ∉ rest := fun m => h (List.mem_cons_of_mem _ m)
    rw [List.cons_append, takeUntil, if_neg ha, ih hr, List.cons_append]

theorem takeUntil_not_mem {c : Char} {l : List Char} (h : c ∉ l) :
    takeUntil c l = l := by
  have := takeUntil_append [] h
  simpa [takeUntil] using this

theorem takeUntil_cons_self (c : Char) (l : List Char) :
    takeUntil c (c :: l) = [] := by
  rw [takeUntil, if_pos rfl]

theorem takeUntil_append_cons {c : Char} {l₁ : List Char} (l₂ : List Char)
    (h : c ∉ l₁) : takeUntil c (l₁ ++ c :: l₂) = l₁ := by
  rw [takeUntil_append _ h, takeUntil_cons_self]
  simp

/-! ### Helper lemmas about the provider chain -/

theorem runChain_cons_complete (nm : String) {f : PackageMetadata → FetchOutcome}
    (rest : List Provider) {acc c : PackageMetadata}
    (hf : f acc = FetchOutcome.contributes c) (hc : c.is_complete = true) :
    runChain ((nm, f) :: rest) acc =
      (some { c with source := some nm }, acc, [nm]) := by
  rw [runChain, hf]
  simp [hc]

theorem runChain_append_some {l₁ : List Provider} (l₂ : List Provider)
    {acc : PackageMetadata} {r : PackageMetadata}
    (h : (runChain l₁ acc).1 = some r) :
    runChain (l₁ ++ l₂) acc = runChain l₁ acc := by
  induction l₁ generalizing acc with
  | nil => simp [runChain] at h
  | cons p rest ih =>
    obtain ⟨nm, f⟩ := p
    cases hf : f acc with
    | fails =>
      simp only [List.cons_append, runChain, hf, List.append_eq] at h ⊢
      rw [ih h]
    | noData =>
      simp only [List.cons_append, runChain, hf, List.append_eq] at h ⊢
      rw [ih h]
    | contributes c =>
      by_cases hc : c.is_complete = true
      · simp only [List.cons_append, runChain, hf, hc, if_true]
      · simp only [Bool.not_eq_true] at hc
        simp only [List.cons_append, runChain, hf, hc, Bool.false_eq_true,
          if_false, List.append_eq] at h ⊢
        rw [ih h]

theorem runChain_append_none {l₁ : List Provider} (l₂ : List Provider)
    {acc : PackageMetadata} (h : (runChain l₁ acc).1 = none) :
    runChain (l₁ ++ l₂) acc =
      ((runChain l₂ (runChain l₁ acc).2.1).1,
        (runChain l₂ (runChain l₁ acc).2.1).2.1,
        (runChain l₁ acc).2.2 ++ (runChain l₂ (runChain l₁ acc).2.1).2.2) := by
  induction l₁ generalizing acc with
  | nil => simp [runChain]
  | cons p rest ih =>
    obtain ⟨nm, f⟩ := p
    cases hf : f acc with
    | fails =>
      simp only [List.cons_append, runChain, hf, List.append_eq] at h ⊢
      rw [ih h]
    | noData =>
      simp only [List.cons_append, runChain, hf, List.append_eq] at h ⊢
      rw [ih h]
    | contributes c =>
      by_cases hc : c.is_complete = true
      · simp only [runChain, hf, hc, if_true] at h
        simp at h
      · simp only [Bool.not_eq_true] at hc
        simp only [List.cons_append, runChain, hf, hc, Bool.false_eq_true,
          if_false, List.append_eq] at h ⊢
        rw [ih h]

theorem runChain_none_invoked {l : List Provider} {acc : PackageMetadata}
    (h : (runChain l acc).1 = none) :
    (runChain l acc).2.2 = l.map Prod.fst := by
  induction l generalizing acc with
  | nil => simp [runChain]
  | cons p rest ih =>
    obtain ⟨nm, f⟩ := p
    cases hf : f acc with
    | fails =>
      simp only [runChain, hf] at h ⊢
      rw [ih h, List.map_cons]
    | noData =>
      simp only [runChain, hf] at h ⊢
      rw [ih h, List.map_cons]
    | contributes c =>
      by_cases hc : c.is_complete = true
      · simp only [runChain, hf, hc, if_true] at h
        simp at h
      · simp only [Bool.not_eq_true] at hc
        simp only [runChain, hf, hc, Bool.false_eq_true, if_false] at h ⊢
        rw [ih h, List.map_cons]

/-! ### Helper lemmas about the parser -/

theorem asString_data (s : String) : s.data.asString = s := rfl

theorem data_pkg : ("pkg:" : String).data = pkgPrefix := rfl

theorem pkgPrefix_isPrefixOf_append (l : List Char) :
    pkgPrefix.isPrefixOf (pkgPrefix ++ l) = true := by
  simp [List.isPrefixOf_iff_prefix]

theorem pkgPrefix_drop (l : List Char) : (pkgPrefix ++ l).drop 4 = l :=
  List.drop_left' rfl

theorem splitOnChar_length_pos (c : Char) (l : List Char) :
    0 < (splitOnChar c l).length :=
  List.length_pos.mpr (splitOnChar_ne_nil c l)

theorem purl_name_readback (e : List Char) (rs : List (List Char))
    (h : rs ≠ []) :
    (if (e :: rs).length = 2 then (e :: rs).getD 1 []
      else joinChar '/' (e :: rs).tail) = joinChar '/' rs := by
  cases rs with
  | nil => exact absurd rfl h
  | cons g gs =>
    cases gs with
    | nil => simp [joinChar]
    | cons g2 gs2 => simp [joinChar]

theorem parsePurlChars_slash {e r : List Char} (he1 : '@' ∉ e)
    (he2 : '/' ∉ e) (hr : '@' ∉ r) :
    parsePurlChars (pkgPrefix ++ (e ++ '/' :: r)) = some (e, r, none) := by
  have hat : '@' ∉ e ++ '/' :: r := by
    intro hm
    rcases List.mem_append.mp hm with h1 | h2
    · exact he1 h1
    · rcases List.mem_cons.mp h2 with h3 | h4
      · exact absurd h3 (by decide)
      · exact hr h4
  rw [parsePurlChars, if_pos (pkgPrefix_isPrefixOf_append _)]
  simp only [pkgPrefix_drop, breakAtFirst_not_mem hat, Option.map_none,
    splitOnChar_append he2]
  have hlen : ¬ (e :: splitOnChar '/' r).length < 2 := by
    have := splitOnChar_length_pos '/' r
    simp only [List.length_cons]
    omega
  rw [if_neg hlen, purl_name_readback _ _ (splitOnChar_ne_nil '/' r),
    joinChar_splitOnChar]
  rfl

theorem parsePurlChars_at {A : List Char} (B : List Char) (hA : '@' ∉ A) :
    parsePurlChars (pkgPrefix ++ (A ++ '@' :: B)) =
      (parsePurlChars (pkgPrefix ++ A)).map
        (fun t => (t.1, t.2.1, some (takeUntil '#' (takeUntil '?' B)))) := by
  rw [parsePurlChars, if_pos (pkgPrefix_isPrefixOf_append _),
    parsePurlChars, if_pos (pkgPrefix_isPrefixOf_append _)]
  simp only [pkgPrefix_drop, breakAtFirst_append hA, breakAtFirst_not_mem hA,
    Option.map_some, Option.map_none]
  by_cases hlen : (splitOnChar '/' A).length < 2
  · rw [if_pos hlen, if_pos hlen]
    rfl
  · rw [if_neg hlen, if_neg hlen]
    rfl

theorem data_scheme_slash (e r : String) :
    ("pkg:" ++ e ++ "/" ++ r).data = pkgPrefix ++ (e.data ++ '/' :: r.data) := by
  simp [String.data_append, data_pkg]
  rfl

theorem parse_scheme_slash {e r : String} (he1 : '@' ∉ e.data)
    (he2 : '/' ∉ e.data) (hr : '@' ∉ r.data) :
    parsePurl ("pkg:" ++ e ++ "/" ++ r) = some (e, r, none) := by
  rw [parsePurl, data_scheme_slash, parsePurlChars_slash he1 he2 hr]
  simp [asString_data]

theorem data_scheme_slash_at (e n w : String) :
    ("pkg:" ++ e ++ "/" ++ n ++ "@" ++ w).data =
      pkgPrefix ++ ((e.data ++ '/' :: n.data) ++ '@' :: w.data) := by
  simp [String.data_append, pkgPrefix]

theorem parse_version_of {e n : String} (w : String) (he1 : '@' ∉ e.data)
    (he2 : '/' ∉ e.data) (hn1 : '@' ∉ n.data) :
    parsePurl ("pkg:" ++ e ++ "/" ++ n ++ "@" ++ w) =
      some (e, n, some (takeUntil '#' (takeUntil '?' w.data)).asString) := by
  have hA : '@' ∉ e.data ++ '/' :: n.data := by
    intro hm
    rcases List.mem_append.mp hm with h1 | h2
    · exact he1 h1
    · rcases List.mem_cons.mp h2 with h3 | h4
      · exact absurd h3 (by decide)
      · exact hn1 h4
  rw [parsePurl, data_scheme_slash_at, parsePurlChars_at _ hA,
    parsePurlChars_slash he1 he2 hn1]
  simp [asString_data]

theorem mem_joinChar {x c : Char} {ls : List (List Char)}
    (h : x ∈ joinChar c ls) : x = c ∨ ∃ l ∈ ls, x ∈ l := by
  induction ls with
  | nil => simp [joinChar] at h
  | cons g gs ih =>
    cases gs with
    | nil =>
      rw [joinChar] at h
      exact Or.inr ⟨g, List.mem_cons_self g [], h⟩
    | cons g2 gs2 =>
      rw [joinChar] at h
      case x_1 => simp
      rcases List.mem_append.mp h with h1 | h2
      · exact Or.inr ⟨g, List.mem_cons_self g _, h1⟩
      · rcases List.mem_cons.mp h2 with h3 | h4
        · exact Or.inl h3
        · rcases ih h4 with h5 | ⟨l, hl, hx⟩
          · exact Or.inl h5
          · exact Or.inr ⟨l, List.mem_cons_of_mem _ hl, hx⟩

/-! ### Bridge between `String.intercalate` and `joinChar` -/

theorem joinChar_eq_flatten (c : Char) (x : List Char)
    (xs : List (List Char)) :
    joinChar c (x :: xs) = x ++ (xs.map (fun y => c :: y)).flatten := by
  induction xs generalizing x with
  | nil => simp [joinChar]
  | cons y ys ih =>
    rw [joinChar, ih y]
    simp
    all_goals simp

theorem intercalate_go_data (s : String) (as : List String) (acc : String) :
    (String.intercalate.go acc s as).data =
      acc.data ++ (as.map (fun a => s.data ++ a.data)).flatten := by
  induction as generalizing acc with
  | nil => simp [String.intercalate.go]
  | cons a tail ih =>
    rw [String.intercalate.go, ih]
    simp [String.data_append]

theorem intercalate_slash_data (segs : List String) :
    (String.intercalate "/" segs).data = joinChar '/' (segs.map String.data) := by
  cases segs with
  | nil => rfl
  | cons a tail =>
    rw [String.intercalate, intercalate_go_data, List.map_cons,
      joinChar_eq_flatten, List.map_map]
    rfl

/-! ### Helper lemmas about the merge -/

theorem pyOr_pos {a : Option String} (b : Option String)
    (h : strTruthy a = true) : pyOr a b = a := by
  rw [pyOr, if_pos h]

theorem pyOr_neg {a : Option String} (b : Option String)
    (h : strTruthy a = false) : pyOr a b = b := by
  rw [pyOr]
  simp [h]

theorem pyOr_self (a : Option String) : pyOr a a = a := by
  rw [pyOr, ite_self]

/-! ### Helper lemmas about the deps.dev link loop -/

theorem processLinks_repo_truthy {repo : Option String}
    (ls : List ApiLink) (home : Option String) (h : strTruthy repo = true) :
    (processLinks ls repo home).1 = repo := by
  induction ls generalizing home with
  | nil => rfl
  | cons lk rest ih =>
    rw [processLinks]
    by_cases hf : isForgeUrl lk.url = true
    · simp only [hf, if_true, h, if_true]
      exact ih home
    · simp only [Bool.not_eq_true] at hf
      simp only [hf, Bool.false_eq_true, if_false]
      by_cases hh : containsSub "homepage".data (lowerChars lk.label.data) = true ∧
          strTruthy home = false
      · rw [if_pos hh]
        exact ih _
      · rw [if_neg hh]
        exact ih home

theorem processLinks_first_forge {l1 : List ApiLink} (l2 : List ApiLink)
    {lk : ApiLink} (home : Option String)
    (h1 : ∀ x ∈ l1, isForgeUrl x.url = false)
    (h2 : isForgeUrl lk.url = true)
    (h3 : cleanRepoUrl lk.url ≠ "") :
    (processLinks (l1 ++ lk :: l2) none home).1 = some (cleanRepoUrl lk.url) := by
  induction l1 generalizing home with
  | nil =>
    rw [List.nil_append, processLinks]
    simp only [h2, if_true]
    have hrepo : strTruthy (some (cleanRepoUrl lk.url)) = true := by
      simp [strTruthy, h3]
    have hnone : strTruthy (none : Option String) = false := rfl
    rw [hnone]
    simp only [Bool.false_eq_true, if_false]
    exact processLinks_repo_truthy l2 home hrepo
  | cons x rest ih =>
    have hx : isForgeUrl x.url = false := h1 x (List.mem_cons_self x rest)
    have hrest : ∀ y ∈ rest, isForgeUrl y.url = false := fun y hy =>
      h1 y (List.mem_cons_of_mem _ hy)
    rw [List.cons_append, processLinks]
    simp only [hx, Bool.false_eq_true, if_false]
    by_cases hh : containsSub "homepage".data (lowerChars x.label.data) = true ∧
        strTruthy home = false
    · rw [if_pos hh]
      exact ih _ hrest
    · rw [if_neg hh]
      exact ih home hrest

example : cleanRepoUrl "git+https://github.com/expressjs/express.git" =
    "https://github.com/expressjs/express" := by decide

example : cleanRepoUrl "https://github.com/a/b/issues" =
    "https://github.com/a/b" := by decide

example : cleanRepoUrl "https://github.com/a/b.gitx" =
    "https://github.com/a/bx" := by decide

example : specCleanRepoUrl "https://github.com/a/b.gitx" =
    "https://github.com/a/b.gitx" := by decide

example : parsePurl "pkg:npm/express@4.18.0" =
    some ("npm", "express", some "4.18.0") := by decide

example : parsePurl "pkg:maven/org.springframework.boot/spring-boot-starter" =
    some ("maven", "org.springframework.boot/spring-boot-starter", none) := by
  decide

example : parsePurl "pkg:golang/github.com/gin-gonic/gin@v1.9.0" =
    some ("golang", "github.com/gin-gonic/gin", some "v1.9.0") := by decide

example : parsePurl "npm/express" = none := by decide

example : parsePurl "pkg:npm" = none := by decide

example : parsePurl "pkg:npm/@scope/pkg" = some ("npm", "", some "scope/pkg") := by
  decide

example : parsePurl "pkg:npm/express?q" = some ("npm", "express?q", none) := by
  decide

/-! ## Claim theorems -/

/-- C5: the merge operation is idempotent (`merge(X, X) == X`) and follows
the fill-missing policy: for every pair of records and every scalar field,
a truthy base value is retained even when the candidate disagrees,
otherwise the candidate's value is adopted; maintainers are merged as a
set union with order-independent membership. -/
theorem merge_idempotent_and_fill_missing :
    (∀ X : PackageMetadata, mergeMetadata X X = X) ∧
    (∀ b c : PackageMetadata,
      ((strTruthy b.ecosystem = true →
          (mergeMetadata b c).ecosystem = b.ecosystem) ∧
        (strTruthy b.ecosystem = false →
          (mergeMetadata b c).ecosystem = c.ecosystem)) ∧
      ((strTruthy b.name = true → (mergeMetadata b c).name = b.name) ∧
        (strTruthy b.name = false → (mergeMetadata b c).name = c.name)) ∧
      ((strTruthy b.version = true →
          (mergeMetadata b c).version = b.version) ∧
        (strTruthy b.version = false →
          (mergeMetadata b c).version = c.version)) ∧
      ((strTruthy b.repo_url = true →
          (mergeMetadata b c).repo_url = b.repo_url) ∧
        (strTruthy b.repo_url = false →
          (mergeMetadata b c).repo_url = c.repo_url)) ∧
      ((strTruthy b.license = true →
          (mergeMetadata b c).license = b.license) ∧
        (strTruthy b.license = false →
          (mergeMetadata b c).license = c.license)) ∧
      ((strTruthy b.description = true →
          (mergeMetadata b c).description = b.description) ∧
        (strTruthy b.description = false →
          (mergeMetadata b c).description = c.description)) ∧
      ((strTruthy b.homepage = true →
          (mergeMetadata b c).homepage = b.homepage) ∧
        (strTruthy b.homepage = false →
          (mergeMetadata b c).homepage = c.homepage)) ∧
      ((strTruthy b.latest_version = true →
          (mergeMetadata b c).latest_version = b.latest_version) ∧
        (strTruthy b.latest_version = false →
          (mergeMetadata b c).latest_version = c.latest_version)) ∧
      ((strTruthy b.source = true → (mergeMetadata b c).source = b.source) ∧
        (strTruthy b.source = false →
          (mergeMetadata b c).source = c.source))) ∧
    (∀ (b c : PackageMetadata) (x : String),
      x ∈ (mergeMetadata b c).maintainers ↔
        x ∈ b.maintainers ∨ x ∈ c.maintainers) := by
  refine ⟨?_, ?_, ?_⟩
  · intro X
    cases X
    simp [mergeMetadata, pyOr_self]
  · intro b c
    repeat' constructor
    all_goals intro h
    all_goals simp [mergeMetadata, pyOr, h]
  · intro b c x
    simp [mergeMetadata, Finset.mem_union]

/-- C5 witness: the merge properties instantiated on concrete records
(idempotence, a retained license, an adopted description, maintainer
union membership). -/
theorem merge_idempotent_and_fill_missing_witness :
    mergeMetadata sampleBase sampleBase = sampleBase ∧
    (mergeMetadata sampleBase sampleCand).license = sampleBase.license ∧
    (mergeMetadata sampleBase sampleCand).description =
      sampleCand.description ∧
    ("bob" ∈ (mergeMetadata sampleBase sampleCand).maintainers ↔
      "bob" ∈ sampleBase.maintainers ∨ "bob" ∈ sampleCand.maintainers) :=
  ⟨merge_idempotent_and_fill_missing.1 sampleBase,
    (merge_idempotent_and_fill_missing.2.1 sampleBase sampleCand).2.2.2.2.1.1
      (by decide),
    (merge_idempotent_and_fill_missing.2.1 sampleBase
        sampleCand).2.2.2.2.2.1.2 (by decide),
    merge_idempotent_and_fill_missing.2.2 sampleBase sampleCand "bob"⟩

/-- C3: parsing fails exactly when the input does not start with the
`pkg:` scheme prefix or has fewer than two `/`-separated segments after
the scheme once the `@version` part is split off; on parse failure,
`discover` raises a terminal `ValueError` naming the invalid input and
invokes no network unit at all. -/
theorem purl_parse_failure_iff_and_no_network :
    (∀ purl : String, parsePurl purl = none ↔
        (pkgPrefix.isPrefixOf purl.data = false ∨
          (splitOnChar '/' (breakAtFirst '@' (purl.data.drop 4)).1).length
            < 2)) ∧
    (∀ (gh : String → Option String) (ps : List Provider) (purl : String)
        (ap : Bool), parsePurl purl = none →
        discover gh ps purl ap =
          (Except.error ("Invalid PURL format: " ++ purl), [])) := by
  constructor
  · intro purl
    rw [parsePurl, Option.map_eq_none', parsePurlChars]
    by_cases hA : pkgPrefix.isPrefixOf purl.data = true
    · rw [if_pos hA]
      by_cases hB :
          (splitOnChar '/' (breakAtFirst '@' (purl.data.drop 4)).1).length < 2
      · simp [hA, hB]
      · simp [hA, hB]
    · have hA' : pkgPrefix.isPrefixOf purl.data = false :=
        Bool.not_eq_true _ ▸ eq_false_of_ne_true hA
      simp [hA']
  · intro gh ps purl ap hp
    rw [discover, hp]

/-- C3 witness: the malformed inputs `npm/express` (missing scheme) and
`pkg:npm` (no name segment) fail the parse, and `discover` on the former
raises the terminal error with an empty network trace. -/
theorem purl_parse_failure_iff_and_no_network_witness :
    parsePurl "npm/express" = none ∧
    parsePurl "pkg:npm" = none ∧
    discover (fun _ => none) [] "npm/express" false =
      (Except.error ("Invalid PURL format: " ++ "npm/express"), []) :=
  ⟨(purl_parse_failure_iff_and_no_network.1 "npm/express").mpr
      (Or.inl (by decide)),
    (purl_parse_failure_iff_and_no_network.1 "pkg:npm").mpr
      (Or.inr (by decide)),
    purl_parse_failure_iff_and_no_network.2 (fun _ => none) [] "npm/express"
      false (by decide)⟩

/-- C4: when the chain is exhausted without the accumulator reaching
completeness, `discover` without `allow_partial` raises the terminal
failure whose message enumerates exactly the missing fields among
ecosystem, name and repo_url (each named field is listed iff it is
empty), while the same inputs with `allow_partial = true` return the
accumulated record without raising. -/
theorem discover_exhausted_reports_missing
    (gh : String → Option String) (ps : List Provider) (purl e n : String)
    (v : Option String) (m2 a : PackageMetadata)
    (hp : parsePurl purl = some (e, n, v))
    (hm2 : m2 = specialGo (specialGithub gh (seedMetadata purl e n v)).1)
    (hnone : (runChain ps m2).1 = none)
    (ha : (runChain ps m2).2.1 = a)
    (hinc : a.is_complete = false) :
    discover gh ps purl false =
      (Except.error (missingMsg purl a),
        (specialGithub gh (seedMetadata purl e n v)).2 ++
          (runChain ps m2).2.2) ∧
    discover gh ps purl true =
      (Except.ok a,
        (specialGithub gh (seedMetadata purl e n v)).2 ++
          (runChain ps m2).2.2) ∧
    ("ecosystem" ∈ missingFields a ↔ strTruthy a.ecosystem = false) ∧
    ("name" ∈ missingFields a ↔ strTruthy a.name = false) ∧
    ("repo_url" ∈ missingFields a ↔ strTruthy a.repo_url = false) ∧
    missingMsg purl a =
      "Could not discover complete metadata for " ++ purl ++ ". Missing: " ++
        String.intercalate ", " (missingFields a) := by
  subst hm2
  refine ⟨?_, ?_, ?_, ?_, ?_, rfl⟩
  · rw [discover, hp]
    simp only [hnone, ha, hinc]
    simp
  · rw [discover, hp]
    simp only [hnone, ha, hinc]
    simp
  · cases h1 : strTruthy a.ecosystem <;> cases h2 : strTruthy a.name <;>
      cases h3 : strTruthy a.repo_url <;>
      simp [missingFields, h1, h2, h3]
  · cases h1 : strTruthy a.ecosystem <;> cases h2 : strTruthy a.name <;>
      cases h3 : strTruthy a.repo_url <;>
      simp [missingFields, h1, h2, h3]
  · cases h1 : strTruthy a.ecosystem <;> cases h2 : strTruthy a.name <;>
      cases h3 : strTruthy a.repo_url <;>
      simp [missingFields, h1, h2, h3]

/-- C4 witness: for `pkg:npm/express` with an empty provider chain the
accumulator stays incomplete, `discover` without `allow_partial` raises
the message naming exactly `repo_url`, and with `allow_partial = true` it
returns the partial record. -/
theorem discover_exhausted_reports_missing_witness :
    discover (fun _ => none) [] "pkg:npm/express" false =
      (Except.error (missingMsg "pkg:npm/express"
        (seedMetadata "pkg:npm/express" "npm" "express" none)), []) ∧
    discover (fun _ => none) [] "pkg:npm/express" true =
      (Except.ok (seedMetadata "pkg:npm/express" "npm" "express" none),
        []) ∧
    missingFields (seedMetadata "pkg:npm/express" "npm" "express" none) =
      ["repo_url"] := by
  have h := discover_exhausted_reports_missing (fun _ => none) []
    "pkg:npm/express" "npm" "express" none
    (seedMetadata "pkg:npm/express" "npm" "express" none)
    (seedMetadata "pkg:npm/express" "npm" "express" none)
    (by decide) (by decide) (by decide) (by decide) (by decide)
  exact ⟨by simpa using h.1, by simpa using h.2.1, by decide⟩

/-- C1: if some provider in the chain returns a contribution that is
itself complete, `discover` returns that contribution immediately with
its `source` field set to that provider's name, and no later provider in
the chain is invoked (the network trace ends at that provider); in
particular a complete second-provider contribution after a failing first
provider yields `source` equal to the second provider's name. -/
theorem discover_complete_contribution_short_circuits
    (gh : String → Option String) (ps1 ps2 : List Provider) (nm : String)
    (f : PackageMetadata → FetchOutcome) (purl e n : String)
    (v : Option String) (ap : Bool) (m2 a r : PackageMetadata)
    (hp : parsePurl purl = some (e, n, v))
    (hm2 : m2 = specialGo (specialGithub gh (seedMetadata purl e n v)).1)
    (hnone : (runChain ps1 m2).1 = none)
    (ha : (runChain ps1 m2).2.1 = a)
    (hf : f a = FetchOutcome.contributes r)
    (hc : r.is_complete = true) :
    discover gh (ps1 ++ (nm, f) :: ps2) purl ap =
      (Except.ok { r with source := some nm },
        (specialGithub gh (seedMetadata purl e n v)).2 ++
          (ps1.map Prod.fst ++ [nm])) := by
  subst hm2
  rw [discover, hp]
  have hstep := runChain_cons_complete nm ps2 hf hc
  have happ := runChain_append_none ((nm, f) :: ps2) hnone
  rw [ha, hstep] at happ
  rw [runChain_none_invoked hnone] at happ
  simp only [happ]

/-- C1 witness: with a failing first provider and a second provider
returning a complete record, discovery for `pkg:npm/express` returns that
record with `source = "clearlydefined"`, and the third provider is never
invoked (the trace is exactly the first two provider names). -/
theorem discover_complete_contribution_short_circuits_witness :
    discover (fun _ => none)
        [("deps.dev", fun _ => FetchOutcome.fails),
          ("clearlydefined", fun _ => FetchOutcome.contributes sampleComplete),
          ("purl2src", fun _ => FetchOutcome.noData)]
        "pkg:npm/express" false =
      (Except.ok { sampleComplete with source := some "clearlydefined" },
        ["deps.dev", "clearlydefined"]) := by
  have h := discover_complete_contribution_short_circuits (fun _ => none)
    [("deps.dev", fun _ => FetchOutcome.fails)]
    [("purl2src", fun _ => FetchOutcome.noData)]
    "clearlydefined" (fun _ => FetchOutcome.contributes sampleComplete)
    "pkg:npm/express" "npm" "express" none false
    (seedMetadata "pkg:npm/express" "npm" "express" none)
    (seedMetadata "pkg:npm/express" "npm" "express" none) sampleComplete
    (by decide) (by decide) (by decide) (by decide) rfl (by decide)
  simpa using h

/-- C2 counterexample: for `pkg:github/o/r` the special-case resolver
makes the accumulator complete before the provider loop, yet the first
provider fetcher is still invoked — its name appears in the network
trace.  This refutes the claim that no further provider fetcher is
invoked once the accumulator satisfies completeness. -/
theorem chain_continues_past_complete_accumulator_cex :
    (specialGo (specialGithub (fun _ => none)
        (seedMetadata "pkg:github/o/r" "github" "o/r" none)).1).is_complete
      = true ∧
    (discover (fun _ => none) [("deps.dev", fun _ => FetchOutcome.noData)]
        "pkg:github/o/r" true).2 = ["github-api", "deps.dev"] := by
  constructor
  · decide
  · decide

/-- C2 corrected: the chain short-circuits only when a provider's own
contribution is complete.  Accumulator completeness — whether produced by
the special-case resolvers before the loop or by merging during the loop
— does not stop the chain: when no contribution is itself complete,
every provider fetcher is invoked, and a complete accumulator is
returned only after the chain is exhausted. -/
theorem chain_stops_only_on_complete_contribution
    (gh : String → Option String) (ps : List Provider) (purl e n : String)
    (v : Option String) (m2 : PackageMetadata) (ap : Bool)
    (hp : parsePurl purl = some (e, n, v))
    (hm2 : m2 = specialGo (specialGithub gh (seedMetadata purl e n v)).1)
    (hnone : (runChain ps m2).1 = none) :
    (runChain ps m2).2.2 = ps.map Prod.fst ∧
    ((runChain ps m2).2.1.is_complete = true →
      discover gh ps purl ap =
        (Except.ok (runChain ps m2).2.1,
          (specialGithub gh (seedMetadata purl e n v)).2 ++
            ps.map Prod.fst)) := by
  subst hm2
  refine ⟨runChain_none_invoked hnone, fun hcomp => ?_⟩
  rw [discover, hp]
  simp only [hnone, hcomp, runChain_none_invoked hnone]
  simp

/-- C2 witness: the corrected behaviour on `pkg:github/o/r` with one
no-data provider — the provider is invoked despite the complete
accumulator, and the accumulator is returned after exhaustion. -/
theorem chain_stops_only_on_complete_contribution_witness :
    discover (fun _ => none) [("deps.dev", fun _ => FetchOutcome.noData)]
        "pkg:github/o/r" false =
      (Except.ok (specialGo (specialGithub (fun _ => none)
          (seedMetadata "pkg:github/o/r" "github" "o/r" none)).1),
        (specialGithub (fun _ => none)
            (seedMetadata "pkg:github/o/r" "github" "o/r" none)).2 ++
          ["deps.dev"]) := by
  have h := chain_stops_only_on_complete_contribution (fun _ => none)
    [("deps.dev", fun _ => FetchOutcome.noData)] "pkg:github/o/r" "github"
    "o/r" none _ false (by decide) rfl (by decide)
  have h2 := h.2 (by decide)
  simpa [runChain] using h2

/-- C8: every well-formed two-segment identifier `pkg:E/N` parses to
ecosystem `E`, name `N` and no version; every identifier whose name part
consists of two or more `/`-separated segments parses to the first
segment as ecosystem and all remaining segments rejoined with `/` as the
name, never split further. -/
theorem parse_two_segment_and_namespaced :
    (∀ E N : String, '@' ∉ E.data → '@' ∉ N.data → '/' ∉ E.data →
      '/' ∉ N.data →
      parsePurl ("pkg:" ++ E ++ "/" ++ N) = some (E, N, none)) ∧
    (∀ (E : String) (segs : List String), 2 ≤ segs.length →
      '@' ∉ E.data → '/' ∉ E.data →
      (∀ s ∈ segs, '@' ∉ s.data ∧ '/' ∉ s.data) →
      parsePurl ("pkg:" ++ E ++ "/" ++ String.intercalate "/" segs) =
        some (E, String.intercalate "/" segs, none)) := by
  constructor
  · intro E N hE1 hN1 hE2 hN2
    exact parse_scheme_slash hE1 hE2 hN1
  · intro E segs hlen hE1 hE2 hsegs
    apply parse_scheme_slash hE1 hE2
    rw [intercalate_slash_data]
    intro hm
    rcases mem_joinChar hm with h1 | ⟨l, hl, hx⟩
    · exact absurd h1 (by decide)
    · rcases List.mem_map.mp hl with ⟨s, hs, rfl⟩
      exact (hsegs s hs).1 hx

/-- C8 witness: `pkg:npm/express` and the namespaced
`pkg:maven/org.springframework.boot/spring-boot-starter` parsed via the
theorem. -/
theorem parse_two_segment_and_namespaced_witness :
    parsePurl "pkg:npm/express" = some ("npm", "express", none) ∧
    parsePurl "pkg:maven/org.springframework.boot/spring-boot-starter" =
      some ("maven", "org.springframework.boot/spring-boot-starter",
        none) := by
  constructor
  · have h := parse_two_segment_and_namespaced.1 "npm" "express"
      (by decide) (by decide) (by decide) (by decide)
    have e1 : ("pkg:" ++ "npm" ++ "/" ++ "express" : String) =
        "pkg:npm/express" := by decide
    rw [e1] at h
    exact h
  · have h := parse_two_segment_and_namespaced.2 "maven"
      ["org.springframework.boot", "spring-boot-starter"] (by decide)
      (by decide) (by decide) (by decide)
    have e2 : ("pkg:" ++ "maven" ++ "/" ++ String.intercalate "/"
        ["org.springframework.boot", "spring-boot-starter"] : String) =
        "pkg:maven/org.springframework.boot/spring-boot-starter" := by
      decide
    have e3 : String.intercalate "/"
        ["org.springframework.boot", "spring-boot-starter"] =
        "org.springframework.boot/spring-boot-starter" := by decide
    rw [e2, e3] at h
    exact h

/-- C7 counterexample: for `pkg:npm/express?q` — an identifier matching
the grammar with a `?` part but no version — parsing keeps the `?` part
inside the name (`express?q`), refuting the claim that the `?`/`#` parts
are ignored by parsing for every identifier of the grammar. -/
theorem qualifier_without_version_leaks_into_name_cex :
    parsePurl "pkg:npm/express?q" = some ("npm", "express?q", none) ∧
    '?' ∈ ("express?q" : String).data ∧
    ("express?q" : String) ≠ "express" := by
  refine ⟨by decide, by decide, by decide⟩

/-- C7 corrected: the `?` and `#` parts are stripped only from the
version: when a version suffix `@V` is present followed by `?` or `#`
noise, the extracted version equals `V` exactly; without a version
suffix the `?`/`#` parts are not ignored — they remain part of the
name. -/
theorem version_noise_stripped_only_with_version
    (e n V q : String) (he1 : '@' ∉ e.data) (he2 : '/' ∉ e.data)
    (hn1 : '@' ∉ n.data) (hV1 : '?' ∉ V.data) (hV2 : '#' ∉ V.data) :
    parsePurl ("pkg:" ++ e ++ "/" ++ n ++ "@" ++ V ++ "?" ++ q) =
      some (e, n, some V) ∧
    parsePurl ("pkg:" ++ e ++ "/" ++ n ++ "@" ++ V ++ "#" ++ q) =
      some (e, n, some V) ∧
    (∀ r : String, '@' ∉ r.data →
      parsePurl ("pkg:" ++ e ++ "/" ++ r) = some (e, r, none)) := by
  refine ⟨?_, ?_, fun r hr => parse_scheme_slash he1 he2 hr⟩
  · have hassoc : "pkg:" ++ e ++ "/" ++ n ++ "@" ++ V ++ "?" ++ q =
        "pkg:" ++ e ++ "/" ++ n ++ "@" ++ (V ++ "?" ++ q) := by
      simp [String.append_assoc]
    rw [hassoc, parse_version_of (V ++ "?" ++ q) he1 he2 hn1]
    have hw : (V ++ "?" ++ q).data = V.data ++ '?' :: q.data := by
      simp [String.data_append]
    rw [hw, takeUntil_append_cons _ hV1, takeUntil_not_mem hV2,
      asString_data]
  · have hassoc : "pkg:" ++ e ++ "/" ++ n ++ "@" ++ V ++ "#" ++ q =
        "pkg:" ++ e ++ "/" ++ n ++ "@" ++ (V ++ "#" ++ q) := by
      simp [String.append_assoc]
    rw [hassoc, parse_version_of (V ++ "#" ++ q) he1 he2 hn1]
    have hw : (V ++ "#" ++ q).data = V.data ++ '#' :: q.data := by
      simp [String.data_append]
    have hq : takeUntil '?' ('#' :: q.data) = '#' :: takeUntil '?' q.data := by
      rw [takeUntil, if_neg (by decide)]
    rw [hw, takeUntil_append _ hV1, hq, takeUntil_append_cons _ hV2,
      asString_data]

/-- C7 witness: the corrected statement on `pkg:npm/express@4.18.0?x`
and `pkg:npm/express@4.18.0#frag`, both yielding version `4.18.0`
exactly, and on the version-less `pkg:npm/express` (name kept intact). -/
theorem version_noise_stripped_only_with_version_witness :
    parsePurl "pkg:npm/express@4.18.0?x" =
      some ("npm", "express", some "4.18.0") ∧
    parsePurl "pkg:npm/express@4.18.0#frag" =
      some ("npm", "express", some "4.18.0") := by
  have h := version_noise_stripped_only_with_version "npm" "express"
    "4.18.0" "x" (by decide) (by decide) (by decide) (by decide)
    (by decide)
  have h2 := version_noise_stripped_only_with_version "npm" "express"
    "4.18.0" "frag" (by decide) (by decide) (by decide) (by decide)
    (by decide)
  constructor
  · have e1 : ("pkg:" ++ "npm" ++ "/" ++ "express" ++ "@" ++ "4.18.0" ++
        "?" ++ "x" : String) = "pkg:npm/express@4.18.0?x" := by decide
    have h1 := h.1
    rw [e1] at h1
    exact h1
  · have e2 : ("pkg:" ++ "npm" ++ "/" ++ "express" ++ "@" ++ "4.18.0" ++
        "#" ++ "frag" : String) = "pkg:npm/express@4.18.0#frag" := by
      decide
    have h3 := h2.2.1
    rw [e2] at h3
    exact h3

/-- C10: the parser splits off the version at the first `@` occurring
anywhere after the scheme prefix, before the ecosystem/name split — for
any body `A` without `@`, parsing `pkg:A@B` equals parsing `pkg:A` with
the version replaced by `B` truncated at `?`/`#`; consequently an npm
scoped-package identifier `pkg:E/@S` (its name starting with `@`) still
parses successfully, but with an empty name and everything after the `@`
as the version. -/
theorem version_split_at_first_at_sign :
    (∀ A B : String, '@' ∉ A.data →
      parsePurl ("pkg:" ++ A ++ "@" ++ B) =
        (parsePurl ("pkg:" ++ A)).map
          (fun t => (t.1, t.2.1,
            some (takeUntil '#' (takeUntil '?' B.data)).asString))) ∧
    (∀ E S : String, '@' ∉ E.data → '/' ∉ E.data → '?' ∉ S.data →
      '#' ∉ S.data →
      parsePurl ("pkg:" ++ E ++ "/@" ++ S) = some (E, "", some S)) := by
  constructor
  · intro A B hA
    have hd : ("pkg:" ++ A ++ "@" ++ B).data =
        pkgPrefix ++ (A.data ++ '@' :: B.data) := by
      simp [String.data_append, pkgPrefix]
    have hd2 : ("pkg:" ++ A).data = pkgPrefix ++ A.data := by
      simp [String.data_append, pkgPrefix]
    rw [parsePurl, parsePurl, hd, hd2, parsePurlChars_at _ hA]
    cases parsePurlChars (pkgPrefix ++ A.data) <;> simp
  · intro E S hE1 hE2 hS1 hS2
    have hE3 : '@' ∉ E.data ++ ['/'] := by
      intro hm
      rcases List.mem_append.mp hm with h1 | h2
      · exact hE1 h1
      · simp at h2
    have hd : ("pkg:" ++ E ++ "/@" ++ S).data =
        pkgPrefix ++ ((E.data ++ ['/']) ++ '@' :: S.data) := by
      simp [String.data_append, pkgPrefix]
    have hslash : E.data ++ ['/'] = E.data ++ '/' :: ([] : List Char) := rfl
    rw [parsePurl, hd, parsePurlChars_at _ hE3, hslash,
      parsePurlChars_slash hE1 hE2 (by simp),
      takeUntil_not_mem hS1, takeUntil_not_mem hS2]
    simp [asString_data]
    rfl

/-- C10 witness: the scoped npm identifier `pkg:npm/@scope/pkg` parses
successfully with empty name and version `scope/pkg`, via the theorem;
and the split-at-first-`@` rule instantiated on `pkg:npm/lodash@1.0`. -/
theorem version_split_at_first_at_sign_witness :
    parsePurl "pkg:npm/@scope/pkg" = some ("npm", "", some "scope/pkg") ∧
    parsePurl "pkg:npm/lodash@1.0" =
      (parsePurl "pkg:npm/lodash").map
        (fun t => (t.1, t.2.1,
          some (takeUntil '#' (takeUntil '?' ("1.0" : String).data)).asString)) := by
  constructor
  · have h := version_split_at_first_at_sign.2 "npm" "scope/pkg"
      (by decide) (by decide) (by decide) (by decide)
    have e1 : ("pkg:" ++ "npm" ++ "/@" ++ "scope/pkg" : String) =
        "pkg:npm/@scope/pkg" := by decide
    rw [e1] at h
    exact h
  · have h := version_split_at_first_at_sign.1 "npm/lodash" "1.0"
      (by decide)
    have e2 : ("pkg:" ++ "npm/lodash" ++ "@" ++ "1.0" : String) =
        "pkg:npm/lodash@1.0" := by decide
    have e3 : ("pkg:" ++ "npm/lodash" : String) = "pkg:npm/lodash" := by
      decide
    rw [e2, e3] at h
    exact h

/-- C6 counterexample: the source cleans repository links with
`replace(".git", "")`, which removes every occurrence of the substring
`.git`, not just a trailing suffix: for the link
`https://github.com/a/b.gitx` the stored repo_url is
`https://github.com/a/bx`, while cleaning as the claim describes
(stripping only a trailing `.git` suffix) leaves the link unchanged. -/
theorem repo_url_clean_strips_inner_git_cex :
    (processLinks [⟨"SOURCE_REPO", "https://github.com/a/b.gitx"⟩]
        none none).1 = some "https://github.com/a/bx" ∧
    specCleanRepoUrl "https://github.com/a/b.gitx" =
      "https://github.com/a/b.gitx" ∧
    (some "https://github.com/a/bx" : Option String) ≠
      some "https://github.com/a/b.gitx" := by
  refine ⟨by decide, by decide, by decide⟩

/-- C6 corrected: the stored repo_url is the first forge link cleaned by
removing every occurrence of the substring `git+` and every occurrence
of the substring `.git`, then cutting at the first occurrence of
`/issues`, `/pulls`, `/wiki`, `/tree`, `/blob`; the first forge link
wins (provided its cleaned URL is non-empty); the express example still
cleans to `https://github.com/expressjs/express`. -/
theorem repo_url_first_forge_link_cleaned
    (l1 l2 : List ApiLink) (lk : ApiLink) (home : Option String)
    (h1 : ∀ x ∈ l1, isForgeUrl x.url = false)
    (h2 : isForgeUrl lk.url = true)
    (h3 : cleanRepoUrl lk.url ≠ "") :
    (processLinks (l1 ++ lk :: l2) none home).1 =
      some (cleanRepoUrl lk.url) ∧
    cleanRepoUrl "git+https://github.com/expressjs/express.git" =
      "https://github.com/expressjs/express" :=
  ⟨processLinks_first_forge l2 home h1 h2 h3, by decide⟩

/-- C6 witness: a non-forge homepage link followed by the express
repository link stores the cleaned express URL. -/
theorem repo_url_first_forge_link_cleaned_witness :
    (processLinks [⟨"HOMEPAGE", "https://expressjs.com"⟩,
        ⟨"SOURCE_REPO", "git+https://github.com/expressjs/express.git"⟩]
      none none).1 = some "https://github.com/expressjs/express" := by
  have h := repo_url_first_forge_link_cleaned
    [⟨"HOMEPAGE", "https://expressjs.com"⟩] []
    ⟨"SOURCE_REPO", "git+https://github.com/expressjs/express.git"⟩ none
    (by decide) (by decide) (by decide)
  have h1 := h.1
  rw [h.2] at h1
  exact h1

/-- C9: for an identifier `pkg:github/<owner>/<repo>` the special-case
resolver sets repo_url to `https://github.com/<owner>/<repo>` directly
from the identifier, and discovery succeeds with an empty provider chain
— no metadata provider is needed for that field.  The only network unit
invoked is the release API (`github-api`); it only populates
latest_version (stripping leading `v` characters from a non-empty tag of
a 200 response, and setting nothing on an empty tag), and its failure or
non-success (`gh` returning `none`) leaves latest_version unset and
never aborts discovery. -/
theorem github_special_case_resolver
    (gh : String → Option String) (owner repo : String)
    (h1 : '@' ∉ owner.data) (h2 : '@' ∉ repo.data) :
    discover gh [] ("pkg:github/" ++ owner ++ "/" ++ repo) false =
      (Except.ok
        { purl := "pkg:github/" ++ owner ++ "/" ++ repo,
          ecosystem := some "github",
          name := some (owner ++ "/" ++ repo),
          version := none,
          repo_url :=
            some ("https://github.com/" ++ (owner ++ "/" ++ repo)),
          license := none, description := none, homepage := none,
          latest_version :=
            match gh (owner ++ "/" ++ repo) with
            | none => none
            | some tag =>
              if tag = "" then none else some (stripLeadingV tag),
          maintainers := ∅, source := none },
        ["github-api"]) := by
  have hnd : (owner ++ "/" ++ repo).data =
      owner.data ++ '/' :: repo.data := by
    simp [String.data_append]
  have hat : '@' ∉ (owner ++ "/" ++ repo).data := by
    rw [hnd]
    intro hm
    rcases List.mem_append.mp hm with hx | hx
    · exact h1 hx
    · rcases List.mem_cons.mp hx with hx | hx
      · exact absurd hx (by decide)
      · exact h2 hx
  have hassoc : "pkg:github/" ++ owner ++ "/" ++ repo =
      "pkg:" ++ "github" ++ "/" ++ (owner ++ "/" ++ repo) := by
    apply String.ext
    simp [String.data_append]
  have hp : parsePurl ("pkg:github/" ++ owner ++ "/" ++ repo) =
      some ("github", owner ++ "/" ++ repo, none) := by
    rw [hassoc]
    exact parse_scheme_slash (by decide) (by decide) hat
  have hmem : '/' ∈ (owner ++ "/" ++ repo).data := by
    rw [hnd]
    exact List.mem_append_right _ (List.mem_cons_self _ _)
  have hne : (owner ++ "/" ++ repo) ≠ "" := by
    intro hq
    rw [hq] at hnd
    simp at hnd
  have hrne : ("https://github.com/" ++ (owner ++ "/" ++ repo)) ≠ "" := by
    intro hq
    have := congrArg String.data hq
    simp [String.data_append] at this
  rw [discover, hp]
  simp [specialGithub, seedMetadata, specialGo, runChain,
    PackageMetadata.is_complete, strTruthy, hne, hmem, hrne]

/-- C9 witness: `pkg:github/expressjs/express` with a failing release
call (`gh` constantly `none`) — repo_url is synthesized from the
identifier, latest_version stays unset, discovery succeeds with only the
release API in the trace; a second instance with a `v1.14.3` tag yields
latest_version `1.14.3`. -/
theorem github_special_case_resolver_witness :
    discover (fun _ => none) [] "pkg:github/expressjs/express" false =
      (Except.ok
        { purl := "pkg:github/expressjs/express",
          ecosystem := some "github",
          name := some "expressjs/express",
          version := none,
          repo_url := some "https://github.com/expressjs/express",
          license := none, description := none, homepage := none,
          latest_version := none, maintainers := ∅, source := none },
        ["github-api"]) ∧
    discover (fun _ => some "v1.14.3") [] "pkg:github/expressjs/express"
        false =
      (Except.ok
        { purl := "pkg:github/expressjs/express",
          ecosystem := some "github",
          name := some "expressjs/express",
          version := none,
          repo_url := some "https://github.com/expressjs/express",
          license := none, description := none, homepage := none,
          latest_version := some "1.14.3", maintainers := ∅,
          source := none },
        ["github-api"]) := by
  constructor
  · have h := github_special_case_resolver (fun _ => none) "expressjs"
      "express" (by decide) (by decide)
    have e1 : ("pkg:github/" ++ "expressjs" ++ "/" ++ "express" : String) =
        "pkg:github/expressjs/express" := by decide
    rw [e1] at h
    simpa using h
  · have h := github_special_case_resolver (fun _ => some "v1.14.3")
      "expressjs" "express" (by decide) (by decide)
    have e1 : ("pkg:github/" ++ "expressjs" ++ "/" ++ "express" : String) =
        "pkg:github/expressjs/express" := by decide
    rw [e1] at h
    have e2 : ("expressjs" ++ "/" ++ "express" : String) =
        "expressjs/express" := by decide
    rw [e2] at h
    simpa [stripLeadingV] using h
